import Mathlib

/-!
Verification of the likelihood score types (`rampwf/score_types/negative_log_likelihood.py`)
and the ranking prediction type (`rampwf/prediction_types/ranking.py`).

Modelling conventions:
* Python/numpy floating-point scalars are modelled as real numbers (`ℝ`).
  NaN is modelled explicitly where the code tests for it or lets it
  propagate: a possibly-NaN float is `F := Option ℝ`, `none` standing
  for NaN, with numpy's NaN-propagating arithmetic spelled out on `F`.
* Arrays are nested lists.  The 3-d binned prediction array
  `y_pred[sample][dim][feature]` is `List (List (List F))`; the 2-d
  mixture prediction array `y_pred[sample][feature]` is `List (List F)`;
  the ground-truth array `y_true[sample][dim]` is `List (List ℝ)`
  (the code never NaN-checks `y_true`).
* A raised Python exception is `Except.error` carrying the message;
  a returned score is `Except.ok`.
* The Python `__call__` also accepts a 1-d `y_true`, which it wraps as
  a single dimension; a 1-d input `[v₀, v₁, …]` corresponds here to
  `yT = [[v₀], [v₁], …]`, whose transpose is the same `[ [v₀, v₁, …] ]`
  matrix the Python wrapping produces, so the 2-d path subsumes it.
* The ranking prediction arrays carry no NaN in the claims considered
  here; they are modelled over `ℚ` (floats are order-faithfully embedded
  in `ℚ`, and `scipy.stats.rankdata` with the default 'average' method
  only uses order and produces half-integers), which keeps every ranking
  computation decidable.
-/

open scoped Real
open Classical

/-- A possibly-NaN float: `none` is NaN. -/
abbrev F : Type := Option ℝ

/-- NaN-propagating addition (`nan + x = nan`). -/
noncomputable def Fadd : F → F → F
  | some a, some b => some (a + b)
  | _, _ => none

/-- NaN-propagating multiplication (numpy float semantics: `nan * x = nan`). -/
noncomputable def Fmul : F → F → F
  | some a, some b => some (a * b)
  | _, _ => none

/-- NaN-propagating negation. -/
noncomputable def Fneg : F → F
  | some a => some (-a)
  | none => none

/-- NaN-propagating sum of a list (`np.sum`). -/
noncomputable def Fsum (l : List F) : F := l.foldr Fadd (some 0)

/-- NaN-propagating division by a plain real. -/
noncomputable def Fdiv : F → ℝ → F
  | some a, r => some (a / r)
  | none, _ => none

/-- `x >= 0` on floats: NaN compares `False` (IEEE semantics of `np.all(sigmas >= 0)`). -/
def FisGe0 : F → Prop
  | some a => 0 ≤ a
  | none => False

/-- NaN-propagating `exp`. -/
noncomputable def Fexp : F → F
  | some a => some (Real.exp a)
  | none => none

/-- Subtract a plain real from a float, propagating NaN. -/
noncomputable def FsubR : F → ℝ → F
  | some a, r => some (a - r)
  | none, _ => none

/-! ## The binned likelihood scorer `NegativeLogLikelihoodReg`

Source: `negative_log_likelihood.py`, lines 21–101. -/

/-- `WORST_LK = -50` (line 21). -/
noncomputable def WORST_LK : ℝ := -50

/-- `bins = y_pred[:, :, :self.n_bins + 1].swapaxes(1, 0)` (line 41). -/
def binsOf (n : ℕ) (yP : List (List (List F))) : List (List (List F)) :=
  (yP.map (fun sampleRow => sampleRow.map (fun r => r.take (n + 1)))).transpose

/-- `prob = y_pred[:, :, self.n_bins + 1 : 2 * self.n_bins + 1].swapaxes(1, 0)` (line 42). -/
def probOf (n : ℕ) (yP : List (List (List F))) : List (List (List F)) :=
  (yP.map (fun sampleRow => sampleRow.map (fun r => (r.drop (n + 1)).take n))).transpose

/-- `np.isnan(m).any()` over a 3-d array (line 44). -/
def hasNaN3 (m : List (List (List F))) : Bool :=
  m.any (fun d => d.any (fun r => r.any Option.isNone))

/-- Read the actual float values out of a NaN-checked array (after the
NaN check every entry is `some`; the default 0 is never read). -/
noncomputable def unwrap3 (m : List (List (List F))) : List (List (List ℝ)) :=
  m.map (fun d => d.map (fun r => r.map (fun x => x.getD 0)))

/-- The NaN / wrong-shape message (lines 45–47, including the source's
`isof` typo; the Python string's internal line break and indentation are
collapsed to single spaces). -/
def nanMsg : String :=
  "The output of the regressor contains nans, or isof the wrong shape. It should be (time_step, dim_step, bins+probas)"

/-- The unordered-bins message (line 56). -/
def orderMsg : String := "Bins must be ordered and non empty"

/-- One row's renormalization `prob / summed_prob` (line 51). -/
noncomputable def normRow (row : List ℝ) : List ℝ := row.map (fun x => x / row.sum)

/-- `np.all(summed_prob == 1)` (line 50): every per-(dim, sample) probability
row sums to exactly 1. -/
def allOne (prob : List (List (List ℝ))) : Prop :=
  ∀ d ∈ prob, ∀ row ∈ d, row.sum = 1

/-- Lines 49–51: divide each probability row by its sum unless every row
already sums to 1. -/
noncomputable def probNorm (prob : List (List (List ℝ))) : List (List (List ℝ)) :=
  if allOne prob then prob else prob.map (fun d => d.map normRow)

/-- Line 54's unordered-bins test: some per-(dim, sample) edge vector has a
consecutive pair with `edge[i] >= edge[i+1]`, i.e. is not a strictly
increasing chain. -/
def someUnsorted (bins : List (List (List ℝ))) : Prop :=
  ∃ d ∈ bins, ∃ row ∈ d, ¬ List.Chain' (· < ·) row

/-- The bin-location loop body (lines 65–70): scan `dim[k]` for `k ≥ 1`;
the first `k` with `dim[k] > truth` gives class `k - 1`; falling off the
end gives the out-of-range sentinel `-1`. -/
noncomputable def findBinAux (t : ℝ) : List ℝ → ℤ → ℤ
  | [], _ => -1
  | e :: rest, k => if e > t then k - 1 else findBinAux t rest (k + 1)

/-- Lines 62–70: the class of `truth` in the edge vector `dim`:
`-1` if `dim[0] > truth`, else the first `k ≥ 1` with `dim[k] > truth`
gives `k - 1`, else `-1`.  (For a single-edge vector the Python loop body
never runs and the cell keeps its NaN placeholder, later cast to a
platform-dependent integer; that situation needs `n_bins = 0` and is
modelled as the sentinel `-1`.) -/
noncomputable def findBin (t : ℝ) : List ℝ → ℤ
  | [] => -1
  | e :: rest => if e > t then -1 else findBinAux t rest 1

/-- `classes_matrix` (lines 58–71): per (dimension, sample) bin index. -/
noncomputable def classesMatrix (binsR : List (List (List ℝ))) (yTd : List (List ℝ)) :
    List (List ℤ) :=
  List.zipWith (fun dimBins dimT => List.zipWith (fun edges t => findBin t edges) dimBins dimT)
    binsR yTd

/-- `bins_sliding` for one edge vector (lines 73–77): consecutive widths
`dim[k+1] - dim[k]`. -/
noncomputable def binWidths (edges : List ℝ) : List ℝ := List.zipWith (fun a b => a - b) edges.tail edges

/-- `preds_matrix` (lines 80–94): the probability of the located bin, with
out-of-range cells (class `-1`) overwritten to `0` (line 88). -/
noncomputable def predsMatrix (probN : List (List (List ℝ))) (classes : List (List ℤ)) :
    List (List ℝ) :=
  List.zipWith (fun probDim clsDim =>
      List.zipWith (fun probRow c => if c = -1 then (0 : ℝ) else probRow.getD c.toNat 0)
        probDim clsDim)
    probN classes

/-- `selected_bins` (lines 80–95): the width of the located bin, with
out-of-range cells overwritten to `-1` (line 89). -/
noncomputable def selBinsMatrix (binsR : List (List (List ℝ))) (classes : List (List ℤ)) :
    List (List ℝ) :=
  List.zipWith (fun dimBins clsDim =>
      List.zipWith (fun edges c =>
          if c = -1 then (-1 : ℝ) else (binWidths edges).getD c.toNat 0)
        dimBins clsDim)
    binsR classes

/-- `preds_matrix / selected_bins` (line 97): per-cell density. -/
noncomputable def densityMatrix (binsR probN : List (List (List ℝ))) (yTd : List (List ℝ)) :
    List (List ℝ) :=
  List.zipWith (fun pr sb => List.zipWith (fun a b => a / b) pr sb)
    (predsMatrix probN (classesMatrix binsR yTd))
    (selBinsMatrix binsR (classesMatrix binsR yTd))

/-- `np.clip(np.log(d), WORST_LK, None)` on one cell (lines 97–98).
numpy's `log 0 = -inf` clips to `-50`; we special-case it because Lean's
`Real.log 0 = 0`.  (A strictly negative density — possible only when the
caller supplies negative probabilities — is `nan` in numpy; no claim
involves that case and it is left at Lean's junk value `Real.log` takes
on negatives.) -/
noncomputable def logClip (d : ℝ) : ℝ :=
  if d = 0 then WORST_LK else max (Real.log d) WORST_LK

/-- The clipped log-likelihood matrix `lk` (lines 97–98). -/
noncomputable def lkMatrix (binsR probN : List (List (List ℝ))) (yTd : List (List ℝ)) :
    List (List ℝ) :=
  (densityMatrix binsR probN yTd).map (fun row => row.map logClip)

/-- `np.sum(-lk) / lk.size` (line 101). -/
noncomputable def scoreOf (binsR probN : List (List (List ℝ))) (yTd : List (List ℝ)) : ℝ :=
  (((lkMatrix binsR probN yTd).flatten).map (fun x => -x)).sum /
    ((lkMatrix binsR probN yTd).flatten).length

/-- `NegativeLogLikelihoodReg.__call__` on the decoded (bins, prob) pair and
the dimension-major ground truth (lines 44–101: NaN check, renormalization,
order check, then the score). -/
noncomputable def nllRegCore (bins prob : List (List (List F))) (yTd : List (List ℝ)) :
    Except String ℝ :=
  if hasNaN3 bins || hasNaN3 prob then .error nanMsg
  else
    let binsR := unwrap3 bins
    let probN := probNorm (unwrap3 prob)
    if someUnsorted binsR then .error orderMsg
    else .ok (scoreOf binsR probN yTd)

/-- `NegativeLogLikelihoodReg.__call__` (lines 34–101): slice the raw 3-d
prediction array into edge and probability blocks, swap to dimension-major
order, and score. -/
noncomputable def nllRegCall (n : ℕ) (yT : List (List ℝ)) (yP : List (List (List F))) :
    Except String ℝ :=
  nllRegCore (binsOf n yP) (probOf n yP) yT.transpose

/-! ## The baseline ratio scorer `LikelihoodRatio`

Source: `negative_log_likelihood.py`, lines 104–130. -/

/-- `scipy.stats.norm.logpdf(y, loc=mean, scale=std)` in closed form:
`-((y - mean)/std)^2 / 2 - log std - log(2π)/2`. -/
noncomputable def norm_logpdf (y mean std : ℝ) : ℝ :=
  -(((y - mean) / std) ^ 2) / 2 - Real.log std - Real.log (2 * π) / 2

/-- `np.mean(y_true, axis=1)` for one dimension. -/
noncomputable def dimMean (dim : List ℝ) : ℝ := dim.sum / dim.length

/-- `np.std(y_true, axis=1)` for one dimension (population standard
deviation: the square root of the mean squared deviation). -/
noncomputable def dimStd (dim : List ℝ) : ℝ :=
  Real.sqrt ((dim.map (fun y => (y - dimMean dim) ^ 2)).sum / dim.length)

/-- `baseline_lls` (lines 123–127): per-(dimension, sample) log-density of
the truth under the Gaussian fitted to that dimension's ground truth. -/
noncomputable def baselineLLs (yTd : List (List ℝ)) : List (List ℝ) :=
  yTd.map (fun dim => dim.map (fun y => norm_logpdf y (dimMean dim) (dimStd dim)))

/-- `np.sum(baseline_lls) / baseline_lls.size` (lines 129–130), computed on
the axis-swapped ground truth. -/
noncomputable def baselineMeanLL (yT : List (List ℝ)) : ℝ :=
  ((baselineLLs yT.transpose).flatten).sum / ((baselineLLs yT.transpose).flatten).length

/-- `LikelihoodRatio.__call__` (lines 114–130): run the wrapped binned
scorer (a raised exception propagates), then return
`np.exp(-nll_reg - np.sum(baseline_lls) / baseline_lls.size)`. -/
noncomputable def likelihoodRatio_call (n : ℕ) (yT : List (List ℝ))
    (yP : List (List (List F))) : Except String ℝ :=
  match nllRegCall n yT yP with
  | .error e => .error e
  | .ok nll => .ok (Real.exp (-nll - baselineMeanLL yT))

/-- The ratio exactly as the spec sentence words it, for comparison with
the source: `exp(mean(baseline log-likelihoods) − wrapped_average_NLL)`. -/
noncomputable def specLikelihoodRatio_call (n : ℕ) (yT : List (List ℝ))
    (yP : List (List (List F))) : Except String ℝ :=
  match nllRegCall n yT yP with
  | .error e => .error e
  | .ok nll => .ok (Real.exp (baselineMeanLL yT - nll))

/-! ## The Gaussian mixture scorer `NegativeLogLikelihoodRegGaussian`

Source: `negative_log_likelihood.py`, lines 133–187. -/

/-- `normpdf(x, mean, sd)` (lines 133–139) on possibly-NaN mean and sd:
`exp(-(x - mean)^2 / (2 sd^2)) / sqrt(2π sd^2)`, NaN-propagating. -/
noncomputable def normpdfF (x : ℝ) : F → F → F
  | some mean, some sd =>
      some (Real.exp (-(x - mean) ^ 2 / (2 * sd ^ 2)) / Real.sqrt (2 * π * sd ^ 2))
  | _, _ => none

/-- Python's `int(...)` float truncation (toward zero). -/
noncomputable def intTrunc (x : ℝ) : ℤ := if x < 0 then ⌈x⌉ else ⌊x⌋

/-- `np.log` then `np.clip(·, WORST_LK, None)` on a possibly-NaN mixture
density (lines 183–184): NaN stays NaN, `log 0 = -inf` clips to `-50`, a
negative density (possible only with negative weights) is NaN in numpy. -/
noncomputable def FlogClip : F → F
  | none => none
  | some w =>
      if w < 0 then none
      else if w = 0 then some WORST_LK
      else some (max (Real.log w) WORST_LK)

/-- `np.allclose(s, 1.0)` with numpy's default tolerances
`rtol = 1e-5`, `atol = 1e-8`: `|s - 1| ≤ atol + rtol * |1|`;
a NaN sum compares `False`. -/
def FallClose1 : F → Prop
  | some s => |s - 1| ≤ 1 / 10 ^ 8 + 1 / 10 ^ 5
  | none => False

/-- The weighted mixture density of one sample (lines 179–182):
`weighted_probs = Σ_i weights[i] * normpdf(y, mus[i], sigmas[i])`,
accumulated from `np.zeros`.  Missing components (rows shorter than the
declared count would raise `IndexError` in numpy; unreachable for
well-formed rows) read as NaN. -/
noncomputable def mixDensity (t : ℝ) (mus sigmas weights : List F) (nb : ℕ) : F :=
  (List.range nb).foldl
    (fun acc i => Fadd acc (Fmul (weights.getD i none) (normpdfF t (mus.getD i none) (sigmas.getD i none))))
    (some 0)

/-- One iteration of the per-dimension loop of
`NegativeLogLikelihoodRegGaussian.__call__` (lines 163–185): read the
component count from column `currIdx` of the first sample row, check the
assertions, slice the mean/sigma/weight blocks of every sample row, and
accumulate `np.sum(-partial_lk)`; then recurse on the remaining dimensions
with the cursor advanced by `1 + 3 * nb`.  A bare failed `assert` is
modelled as an error carrying the asserted expression; `int(nan)` raises
`ValueError` in Python. -/
noncomputable def nllGaussLoop (maxg : ℕ) (yP : List (List F)) :
    List (List ℝ) → ℕ → Except String F
  | [], _ => .ok (some 0)
  | yTrueDim :: rest, currIdx =>
    match (yP.getD 0 []).getD currIdx none with
    | none => .error "cannot convert float NaN to integer"
    | some cnt =>
      let nb : ℤ := intTrunc cnt
      if ¬ (nb ≤ maxg) then .error "assert nb_gaussians <= self.max_gauss"
      else
        let nbN := nb.toNat
        let mus := yP.map (fun row => (row.drop (currIdx + 1)).take nbN)
        let sigmas := yP.map (fun row => (row.drop (currIdx + 1 + nbN)).take nbN)
        let weights := yP.map (fun row => (row.drop (currIdx + 1 + 2 * nbN)).take nbN)
        if ¬ (∀ row ∈ sigmas, ∀ x ∈ row, FisGe0 x) then
          .error "assert np.all(sigmas >= 0)"
        else if ¬ (∀ row ∈ weights, FallClose1 (Fsum row)) then
          .error "assert np.allclose(weights.sum(axis=1), 1.0)"
        else
          let contrib := Fsum (List.zipWith (fun t rows =>
              Fneg (FlogClip (mixDensity t rows.1 rows.2.1 rows.2.2 nbN)))
            yTrueDim (List.zip mus (List.zip sigmas weights)))
          match nllGaussLoop maxg yP rest (currIdx + 1 + 3 * nbN) with
          | .error e => .error e
          | .ok acc => .ok (Fadd contrib acc)

/-- `NegativeLogLikelihoodRegGaussian.__call__` (lines 152–187): loop over
the dimensions of the axis-swapped ground truth, then divide the
accumulated `logLK` by `y_true.size`. -/
noncomputable def nllGaussCall (maxg : ℕ) (yT : List (List ℝ)) (yP : List (List F)) :
    Except String F :=
  match nllGaussLoop maxg yP yT.transpose 0 with
  | .error e => .error e
  | .ok logLK => .ok (Fdiv logLK ((yT.transpose.flatten).length))

/-- `LikelihoodRatioGaussian.__call__` (lines 200–216): run the wrapped
mixture scorer (a NaN score propagates through `np.exp`), then return
`np.exp(-nll_reg - np.sum(baseline_lls) / baseline_lls.size)`. -/
noncomputable def likelihoodRatioGaussian_call (maxg : ℕ) (yT : List (List ℝ))
    (yP : List (List F)) : Except String F :=
  match nllGaussCall maxg yT yP with
  | .error e => .error e
  | .ok nll => .ok (Fexp (FsubR (Fneg nll) (baselineMeanLL yT)))

/-! ## Score-type metadata

The class attributes `is_lower_the_better`, `minimum`, `maximum`
declared on each scorer class. -/

/-- The static metadata a score type exposes; the declared range bounds
live in the extended reals so that `float('inf')` and `-float('inf')`
are exact. -/
structure ScoreTypeMeta where
  is_lower_the_better : Bool
  minimum : EReal
  maximum : EReal

/-- `NegativeLogLikelihoodReg`'s metadata (lines 25–27):
lower-is-better, range `(-inf, inf)`. -/
def nllRegMeta : ScoreTypeMeta := ⟨true, ⊥, ⊤⟩

/-- `NegativeLogLikelihoodRegGaussian`'s metadata (lines 143–145):
lower-is-better, `minimum = 0.0`, `maximum = inf`. -/
def nllGaussMeta : ScoreTypeMeta := ⟨true, (0 : ℝ), ⊤⟩

/-- `LikelihoodRatio`'s metadata (lines 105–107). -/
def likelihoodRatioMeta : ScoreTypeMeta := ⟨false, (0 : ℝ), ⊤⟩

/-! ## The ranking prediction type

Source: `rampwf/prediction_types/ranking.py`. -/

/-- A ranking prediction's `y_pred` view: two columns over `n` samples
(`y_pred[:, 0]` and `y_pred[:, 1]`). -/
abbrev RankPred (n : ℕ) : Type := (Fin n → ℚ) × (Fin n → ℚ)

/-- `scipy.stats.rankdata` with the default `'average'` method: the rank of
`x i` is the number of strictly smaller entries plus the average ordinal
position within its tie block, i.e. `L + (E + 1)/2` with `L` the count of
smaller and `E` the count of equal entries. -/
def rankAvg {n : ℕ} (x : Fin n → ℚ) (i : Fin n) : ℚ :=
  ((Finset.univ.filter (fun j => x j < x i)).card : ℚ) +
    (((Finset.univ.filter (fun j => x j = x i)).card : ℚ) + 1) / 2

/-- One model's entry in `y_comb_list` (lines 96–101): column 0 replaced by
`rankdata(y_pred[:, 0])`, column 1 by `len(y_pred) - rankdata(y_pred[:, 1])`. -/
def rankTransform {n : ℕ} (p : RankPred n) : RankPred n :=
  (fun i => rankAvg p.1 i, fun i => (n : ℚ) - rankAvg p.2 i)

/-- `_combine` on the full list (lines 94–107): stack every model's rank
transform and take the per-cell mean across models (`np.nanmean` along the
model axis; with no NaN present this is the plain mean). -/
def rankCombine {n : ℕ} (l : List (RankPred n)) : RankPred n :=
  (fun i => (l.map (fun p => rankAvg p.1 i)).sum / l.length,
   fun i => (l.map (fun p => (n : ℚ) - rankAvg p.2 i)).sum / l.length)

/-- The error message of `_ranking_init` (lines 25–26). -/
def missingInitMsg : String := "Missing init argument: y_pred, y_true, or n_samples"

/-- A ranking `Predictions` instance produced by `make_ranking`: its only
data attribute is the `y_pred` array (entries may be the NaN fill of the
`n_samples` initializer). -/
structure RankingState where
  y_pred : List (List F)

/-- Modelled from the spec: `check_y_pred_dimensions` comes from the
prediction base class (`prediction_types/base.py`), which is not among the
source files; per §3 and §6 of the spec a ranking prediction is "a
two-column array per sample" with `n_columns` fixed by the label
vocabulary, so the check validates that every row has `n_columns` entries. -/
noncomputable def check_y_pred_dimensions (nColumns : ℕ) (s : RankingState) :
    Except String RankingState :=
  if ∀ row ∈ s.y_pred, row.length = nColumns then .ok s
  else .error "Wrong y_pred dimensions"

/-- `_init_from_pred_labels` (lines 30–53): one row per ground-truth label
list, holding `1/k` at the columns of the `k` (assumed distinct) positive
labels and `0` elsewhere. -/
noncomputable def initFromPredLabels (labelNames : List ℤ) (yPredLabels : List (List ℤ)) :
    List (List F) :=
  yPredLabels.map (fun labels =>
    labelNames.map (fun name => if name ∈ labels then some (1 / (labels.length : ℝ)) else some 0))

/-- `_ranking_init` (lines 16–27): initialize from `y_pred`, else from
`y_true`, else as an `n_samples × n_columns` NaN array, else raise
`ValueError`; every successful branch then runs `check_y_pred_dimensions`.
The error branch produces no instance at all. -/
noncomputable def rankingInit (nColumns : ℕ) (labelNames : List ℤ)
    (y_pred : Option (List (List F))) (y_true : Option (List (List ℤ)))
    (n_samples : Option ℕ) : Except String RankingState :=
  match y_pred with
  | some yp => check_y_pred_dimensions nColumns ⟨yp⟩
  | none =>
    match y_true with
    | some yt => check_y_pred_dimensions nColumns ⟨initFromPredLabels labelNames yt⟩
    | none =>
      match n_samples with
      | some m => check_y_pred_dimensions nColumns ⟨List.replicate m (List.replicate nColumns none)⟩
      | none => .error missingInitMsg

/-! ## Concrete inputs used by witnesses and counterexamples -/

/-- A well-formed binned prediction for two samples and one dimension:
edges `[0, 4]`, probability `[1]` (`n_bins = 1`). -/
noncomputable def predBinsSimple : List (List (List F)) :=
  [[[some 0, some 4, some 1]], [[some 0, some 4, some 1]]]

/-- The upper bin edge `-1 + sqrt(2 π e)` that makes a one-bin histogram
have exactly the average likelihood of the `N(1, 1)` baseline fit on the
ground truth `[0, 2]`. -/
noncomputable def calEdge : ℝ := -1 + Real.sqrt (2 * π * Real.exp 1)

/-- The calibration witness prediction: for both samples, one bin
`[-1, -1 + sqrt(2 π e))` carrying probability 1. -/
noncomputable def predBinsCal : List (List (List F)) :=
  [[[some (-1), some calEdge, some 1]], [[some (-1), some calEdge, some 1]]]

/-- A binned prediction (one sample, one dimension, `n_bins = 1`) whose
single bin `[0, 1)` carries probability 1; the witness truth `5` lies at
or above the last edge. -/
noncomputable def predBinsOut : List (List (List F)) := [[[some 0, some 1, some 1]]]

/-- Apply `g` to the entry at index `i`, leaving the rest (and any
out-of-range index) unchanged. -/
def mapAt {α : Type} (g : α → α) : ℕ → List α → List α
  | _, [] => []
  | 0, x :: xs => g x :: xs
  | k + 1, x :: xs => x :: mapAt g k xs

/-! ## Helper lemmas -/

theorem nllRegCore_nan {bins prob : List (List (List F))} {yTd : List (List ℝ)}
    (h : (hasNaN3 bins || hasNaN3 prob) = true) :
    nllRegCore bins prob yTd = .error nanMsg := by
  simp only [nllRegCore, h, if_true]

theorem nllRegCore_unsorted {bins prob : List (List (List F))} {yTd : List (List ℝ)}
    (h : (hasNaN3 bins || hasNaN3 prob) = false)
    (h2 : someUnsorted (unwrap3 bins)) :
    nllRegCore bins prob yTd = .error orderMsg := by
  simp only [nllRegCore, h, Bool.false_eq_true, if_false, if_pos h2]

theorem nllRegCore_ok {bins prob : List (List (List F))} {yTd : List (List ℝ)}
    (h : (hasNaN3 bins || hasNaN3 prob) = false)
    (h2 : ¬ someUnsorted (unwrap3 bins)) :
    nllRegCore bins prob yTd =
      .ok (scoreOf (unwrap3 bins) (probNorm (unwrap3 prob)) yTd) := by
  simp only [nllRegCore, h, Bool.false_eq_true, if_false, if_neg h2]

theorem nllRegCore_ok_inv {bins prob : List (List (List F))} {yTd : List (List ℝ)} {r : ℝ}
    (h : nllRegCore bins prob yTd = .ok r) :
    (hasNaN3 bins || hasNaN3 prob) = false ∧ ¬ someUnsorted (unwrap3 bins) ∧
      r = scoreOf (unwrap3 bins) (probNorm (unwrap3 prob)) yTd := by
  by_cases h1 : (hasNaN3 bins || hasNaN3 prob) = true
  · rw [nllRegCore_nan h1] at h; exact absurd h (by simp)
  · have h1' : (hasNaN3 bins || hasNaN3 prob) = false := by
      simpa using h1
    by_cases h2 : someUnsorted (unwrap3 bins)
    · rw [nllRegCore_unsorted h1' h2] at h; exact absurd h (by simp)
    · rw [nllRegCore_ok h1' h2] at h
      exact ⟨h1', h2, (Except.ok.inj h).symm⟩

/-! ## C10 -/

/-- C10: constructing a ranking prediction with none of `y_pred`, `y_true`,
`n_samples` provided raises `ValueError` naming the three missing
arguments, and no instance (in particular none carrying a `y_pred`
attribute) is produced. -/
theorem rankingInit_missing_args (nColumns : ℕ) (labelNames : List ℤ) :
    rankingInit nColumns labelNames none none none = .error missingInitMsg := rfl

/-! ## C6 -/

/-- C6 counterexample: the mixture scorer's declared minimum is `0.0`
(line 144 of the source), not `-∞` as the claim states. -/
theorem nllGaussMeta_min_not_bot : nllGaussMeta.minimum ≠ ⊥ := by
  simp only [nllGaussMeta]
  exact EReal.coe_ne_bot 0

/-- C6 amended: the mixture scorer shares the binned scorer's direction
(`is_lower_the_better = true`) and its declared maximum is `+∞`, but its
declared minimum is `0.0` — unlike the binned scorer, whose declared
minimum is `-∞`. -/
theorem nllGaussMeta_spec :
    nllGaussMeta.is_lower_the_better = true ∧
    nllGaussMeta.is_lower_the_better = nllRegMeta.is_lower_the_better ∧
    nllGaussMeta.minimum = ((0 : ℝ) : EReal) ∧
    nllGaussMeta.maximum = ⊤ ∧
    nllGaussMeta.minimum ≠ nllRegMeta.minimum := by
  refine ⟨rfl, rfl, rfl, rfl, ?_⟩
  simp only [nllGaussMeta, nllRegMeta]
  exact EReal.coe_ne_bot 0

/-! ## C4 -/

/-- C4 amended (binned side): a NaN anywhere in the decoded bin-edge or
probability slices (the first `2·n_bins+1` features of any
(sample, dimension) row) makes the binned scorer fail immediately with
the error naming the expected `(time_step, dim_step, bins+probas)` layout. -/
theorem nllReg_nan_error (n : ℕ) (yT : List (List ℝ)) (yP : List (List (List F)))
    (h : (hasNaN3 (binsOf n yP) || hasNaN3 (probOf n yP)) = true) :
    nllRegCall n yT yP = .error nanMsg :=
  nllRegCore_nan h

theorem nllReg_nan_error_witness :
    (hasNaN3 (binsOf 1 [[[none, some 1, some 1]]]) ||
      hasNaN3 (probOf 1 [[[none, some 1, some 1]]])) = true ∧
    nllRegCall 1 [[0]] [[[none, some 1, some 1]]] = .error nanMsg :=
  ⟨rfl, nllReg_nan_error 1 [[0]] [[[none, some 1, some 1]]] rfl⟩

/-- C4 counterexample (mixture side): the mixture scorer performs no NaN
check at all.  With a NaN among the mixture means (count, sigmas and
weights well-formed, so every assertion passes), the call raises nothing
and returns a NaN score instead of failing. -/
theorem nllGauss_nan_returns_value :
    nllGaussCall 1 [[0]] [[some 1, none, some 1, some 1]] = .ok none := by
  have htrans : ([[(0:ℝ)]] : List (List ℝ)).transpose = [[0]] := rfl
  rw [nllGaussCall, htrans]
  rw [show nllGaussLoop 1 [[some 1, none, some 1, some 1]] [[0]] 0 = .ok none from ?_]
  · rfl
  · rw [nllGaussLoop]
    simp only [List.getD, List.get?, List.getElem?_cons_zero, Option.getD_some]
    rw [show intTrunc 1 = 1 by rw [intTrunc, if_neg (by norm_num)]; exact Int.floor_one]
    rw [if_neg (by norm_num)]
    rw [if_neg ?hsig]
    case hsig =>
      simp only [not_not, List.mem_map, List.mem_singleton]
      rintro row ⟨r, hr, rfl⟩ x hx
      subst hr
      simp only [List.drop, List.take, List.mem_singleton] at hx
      subst hx
      exact (by norm_num : (0:ℝ) ≤ 1)
    rw [if_neg ?hw]
    case hw =>
      simp only [not_not, List.mem_map, List.mem_singleton]
      rintro row ⟨r, hr, rfl⟩
      subst hr
      show FallClose1 (Fsum [some 1])
      show FallClose1 (Fadd (some 1) (some 0))
      show |(1 : ℝ) + 0 - 1| ≤ 1 / 10 ^ 8 + 1 / 10 ^ 5
      norm_num
    rw [nllGaussLoop]
    rfl

/-! ## C5 -/

/-- C5 counterexample: the unordered-bins error message is the constant
string `"Bins must be ordered and non empty"` regardless of which
(dimension, sample) cell offends — here the same single-sample input with
the reversed edge vector placed at dimension 0 and at dimension 1
produces byte-identical errors, so the message identifies neither the
offending dimension nor the offending sample. -/
theorem nllReg_unordered_msg_constant :
    nllRegCall 1 [[0, 0]] [[[some 1, some 0, some 1], [some 0, some 1, some 1]]] =
      .error orderMsg ∧
    nllRegCall 1 [[0, 0]] [[[some 0, some 1, some 1], [some 1, some 0, some 1]]] =
      .error orderMsg := by
  constructor <;>
  · unfold nllRegCall
    refine nllRegCore_unsorted (by rfl) ?_
    refine ⟨[[(1:ℝ), 0]], ?_, [(1:ℝ), 0], ?_, ?_⟩
    · first
        | exact show [[(1:ℝ), 0]] ∈ [[[(1:ℝ), 0]], [[(0:ℝ), 1]]] by simp
        | exact show [[(1:ℝ), 0]] ∈ [[[(0:ℝ), 1]], [[(1:ℝ), 0]]] by simp
    · simp
    · simp only [List.chain'_cons, List.chain'_singleton, and_true]
      norm_num

/-- C5 amended: a NaN-free binned prediction containing a
non-strictly-increasing per-(dimension, sample) edge vector makes the
scorer fail — no score is returned — but with the fixed message
`"Bins must be ordered and non empty"`, which does not identify the
offending dimension or sample. -/
theorem nllReg_unordered_error (n : ℕ) (yT : List (List ℝ)) (yP : List (List (List F)))
    (h : (hasNaN3 (binsOf n yP) || hasNaN3 (probOf n yP)) = false)
    (h2 : someUnsorted (unwrap3 (binsOf n yP))) :
    nllRegCall n yT yP = .error orderMsg :=
  nllRegCore_unsorted h h2

theorem nllReg_unordered_error_witness :
    (hasNaN3 (binsOf 1 [[[some 1, some 0, some 1]]]) ||
      hasNaN3 (probOf 1 [[[some 1, some 0, some 1]]])) = false ∧
    someUnsorted (unwrap3 (binsOf 1 [[[some 1, some 0, some 1]]])) ∧
    nllRegCall 1 [[0]] [[[some 1, some 0, some 1]]] = .error orderMsg := by
  have hs : someUnsorted (unwrap3 (binsOf 1 [[[some 1, some 0, some 1]]])) := by
    refine ⟨[[(1:ℝ), 0]], show [[(1:ℝ), 0]] ∈ [[[(1:ℝ), 0]]] by simp,
      [(1:ℝ), 0], by simp, ?_⟩
    simp only [List.chain'_cons, List.chain'_singleton, and_true]
    norm_num
  exact ⟨rfl, hs, nllReg_unordered_error 1 [[0]] [[[some 1, some 0, some 1]]] rfl hs⟩

/-! ## C1 -/

/-- C1 amended: both baseline ratio scorers return
`exp(-wrapped_average_NLL - mean(baseline log-likelihoods))` — the
geometric ratio of the candidate's average likelihood to the baseline
Gaussian fit's average likelihood — not
`exp(mean(baseline log-likelihoods) - wrapped_average_NLL)` as the spec
sentence words it (the two agree only when the mean baseline
log-likelihood is zero). -/
theorem ratio_formula (n maxg : ℕ) (yT : List (List ℝ)) (yP : List (List (List F)))
    (yPg : List (List F)) :
    likelihoodRatio_call n yT yP =
      (nllRegCall n yT yP).map (fun nll => Real.exp (-nll - baselineMeanLL yT)) ∧
    likelihoodRatioGaussian_call maxg yT yPg =
      (nllGaussCall maxg yT yPg).map
        (fun nll => Fexp (FsubR (Fneg nll) (baselineMeanLL yT))) := by
  constructor
  · rw [likelihoodRatio_call]
    cases nllRegCall n yT yP <;> rfl
  · rw [likelihoodRatioGaussian_call]
    cases nllGaussCall maxg yT yPg <;> rfl

theorem baselineMeanLL_02 : baselineMeanLL [[0], [2]] = -(1/2) - Real.log (2 * π) / 2 := by
  have htrans : ([[(0:ℝ)], [2]]).transpose = [[0, 2]] := rfl
  have hmean : dimMean [(0:ℝ), 2] = 1 := by
    rw [dimMean]; norm_num
  have hstd : dimStd [(0:ℝ), 2] = 1 := by
    rw [dimStd, hmean]
    norm_num [Real.sqrt_one]
  rw [baselineMeanLL, htrans, baselineLLs]
  simp only [List.map_cons, List.map_nil, hmean, hstd, List.flatten]
  rw [norm_logpdf, norm_logpdf]
  simp only [Real.log_one]
  norm_num

theorem baselineMeanLL_02_neg : baselineMeanLL [[0], [2]] < 0 := by
  rw [baselineMeanLL_02]
  have h2pi : (1:ℝ) < 2 * π := by
    have := Real.pi_gt_d6; norm_num at this ⊢; linarith
  have := Real.log_pos h2pi
  linarith

/-- C1 counterexample: on the ground truth `[[0], [2]]` (one dimension,
two samples, fitted baseline `N(1, 1)`) and a well-formed binned
prediction, the binned ratio scorer's output differs from the value the
spec formula `exp(mean(baseline lls) − wrapped NLL)` prescribes, because
the mean baseline log-likelihood `-1/2 - log(2π)/2` is nonzero. -/
theorem ratio_ne_spec_ratio :
    likelihoodRatio_call 1 [[0], [2]] predBinsSimple ≠
      specLikelihoodRatio_call 1 [[0], [2]] predBinsSimple := by
  have hnan : (hasNaN3 (binsOf 1 predBinsSimple) || hasNaN3 (probOf 1 predBinsSimple)) = false :=
    rfl
  have hns : ¬ someUnsorted (unwrap3 (binsOf 1 predBinsSimple)) := by
    rintro ⟨d, hd, row, hrow, hch⟩
    have hd' : d ∈ [[[(0:ℝ), 4], [0, 4]]] := hd
    simp only [List.mem_singleton] at hd'
    subst hd'
    simp only [List.mem_cons, List.mem_singleton, List.not_mem_nil, or_false] at hrow
    rcases hrow with h | h <;> subst h <;>
      exact hch (by simp only [List.chain'_cons, List.chain'_singleton, and_true]; norm_num)
  have hok : nllRegCall 1 [[0], [2]] predBinsSimple =
      .ok (scoreOf (unwrap3 (binsOf 1 predBinsSimple))
        (probNorm (unwrap3 (probOf 1 predBinsSimple))) ([[0], [2]] : List (List ℝ)).transpose) :=
    nllRegCore_ok hnan hns
  intro heq
  rw [likelihoodRatio_call, specLikelihoodRatio_call, hok] at heq
  have h1 := Except.ok.inj heq
  rw [Real.exp_eq_exp] at h1
  have hm0 : baselineMeanLL [[0], [2]] = 0 := by linarith
  exact absurd hm0 (ne_of_lt baselineMeanLL_02_neg)

/-! ## C3 -/

theorem getD_zipWith {α β γ : Type} (f : α → β → γ) (l1 : List α) (l2 : List β)
    (i : ℕ) (d1 : α) (d2 : β) (dg : γ) (h1 : i < l1.length) (h2 : i < l2.length) :
    (List.zipWith f l1 l2).getD i dg = f (l1.getD i d1) (l2.getD i d2) := by
  rw [List.getD_eq_getElem _ _ (by rw [List.length_zipWith]; omega),
    List.getD_eq_getElem _ _ h1, List.getD_eq_getElem _ _ h2]
  exact List.getElem_zipWith

theorem getD_map {α β : Type} (f : α → β) (l : List α) (i : ℕ) (d : α) (db : β)
    (h : i < l.length) : (l.map f).getD i db = f (l.getD i d) := by
  rw [List.getD_eq_getElem _ _ (by rw [List.length_map]; omega),
    List.getD_eq_getElem _ _ h]
  exact List.getElem_map f

theorem getD_mem {α : Type} (l : List α) (i : ℕ) (d : α) (h : i < l.length) :
    l.getD i d ∈ l := by
  rw [List.getD_eq_getElem _ _ h]
  exact List.getElem_mem h

theorem chain_le_getLast {l : List ℝ} (hc : List.Chain' (· < ·) l) {eL : ℝ}
    (hL : l.getLast? = some eL) : ∀ x ∈ l, x ≤ eL := by
  induction l with
  | nil => simp at hL
  | cons a t ih =>
    cases t with
    | nil =>
      simp only [List.getLast?_singleton, Option.some.injEq] at hL
      simp [hL]
    | cons b t' =>
      rw [List.chain'_cons] at hc
      have hL' : (b :: t').getLast? = some eL := by
        rwa [List.getLast?_cons_cons] at hL
      have ihr := ih hc.2 hL'
      intro x hx
      rcases List.mem_cons.mp hx with rfl | hx'
      · exact le_of_lt (lt_of_lt_of_le hc.1 (ihr b (List.mem_cons_self b t')))
      · exact ihr x hx'

theorem findBinAux_none {t : ℝ} {l : List ℝ} (h : ∀ e ∈ l, ¬ e > t) (k : ℤ) :
    findBinAux t l k = -1 := by
  induction l generalizing k with
  | nil => rfl
  | cons e rest ih =>
    rw [findBinAux, if_neg (h e (List.mem_cons_self e rest))]
    exact ih (fun x hx => h x (List.mem_cons_of_mem e hx)) (k + 1)

theorem findBin_out_of_range {t : ℝ} {edges : List ℝ} (hc : List.Chain' (· < ·) edges)
    (h : (∃ e0, edges.head? = some e0 ∧ t < e0) ∨
      (∃ eL, edges.getLast? = some eL ∧ eL ≤ t)) :
    findBin t edges = -1 := by
  cases edges with
  | nil => rfl
  | cons e rest =>
    rcases h with ⟨e0, he0, ht⟩ | ⟨eL, heL, ht⟩
    · simp only [List.head?_cons, Option.some.injEq] at he0
      subst he0
      rw [findBin, if_pos ht]
    · by_cases he : e > t
      · rw [findBin, if_pos he]
      · rw [findBin, if_neg he]
        refine findBinAux_none (fun x hx => ?_) 1
        have hxle : x ≤ eL :=
          chain_le_getLast hc heL x (List.mem_cons_of_mem e hx)
        exact not_lt.mpr (le_trans hxle ht)

/-- C3: in the binned scorer, any (dimension, sample) cell whose truth lies
strictly below the first bin edge or at/above the last edge gets the
out-of-range class `-1`, density `0`, log-likelihood floored at
`WORST_LK = -50`, hence contributes exactly `50` to the per-cell negative
log-likelihood terms, and the returned score is precisely the mean of
those per-cell terms. -/
theorem binned_out_of_range_floor (n : ℕ) (yT : List (List ℝ)) (yP : List (List (List F)))
    (r : ℝ) (i j : ℕ)
    (hok : nllRegCall n yT yP = .ok r)
    (hib : i < (unwrap3 (binsOf n yP)).length)
    (hit : i < yT.transpose.length)
    (hip : i < (probNorm (unwrap3 (probOf n yP))).length)
    (hjb : j < ((unwrap3 (binsOf n yP)).getD i []).length)
    (hjt : j < (yT.transpose.getD i []).length)
    (hjp : j < ((probNorm (unwrap3 (probOf n yP))).getD i []).length)
    (hrange :
      (∃ e0, (((unwrap3 (binsOf n yP)).getD i []).getD j []).head? = some e0 ∧
        ((yT.transpose.getD i []).getD j 0) < e0) ∨
      (∃ eL, (((unwrap3 (binsOf n yP)).getD i []).getD j []).getLast? = some eL ∧
        eL ≤ ((yT.transpose.getD i []).getD j 0))) :
    (((classesMatrix (unwrap3 (binsOf n yP)) yT.transpose).getD i []).getD j 0 = -1) ∧
    (((densityMatrix (unwrap3 (binsOf n yP)) (probNorm (unwrap3 (probOf n yP)))
        yT.transpose).getD i []).getD j 0 = 0) ∧
    (((lkMatrix (unwrap3 (binsOf n yP)) (probNorm (unwrap3 (probOf n yP)))
        yT.transpose).getD i []).getD j 0 = -50) ∧
    (-(((lkMatrix (unwrap3 (binsOf n yP)) (probNorm (unwrap3 (probOf n yP)))
        yT.transpose).getD i []).getD j 0) = 50) ∧
    r = (((lkMatrix (unwrap3 (binsOf n yP)) (probNorm (unwrap3 (probOf n yP)))
        yT.transpose).flatten).map (fun x => -x)).sum /
      ((lkMatrix (unwrap3 (binsOf n yP)) (probNorm (unwrap3 (probOf n yP)))
        yT.transpose).flatten).length := by
  obtain ⟨hnan, hns, hr⟩ := nllRegCore_ok_inv hok
  set binsR := unwrap3 (binsOf n yP) with hbinsR
  set probN := probNorm (unwrap3 (probOf n yP)) with hprobN
  set yTd := yT.transpose with hyTd
  set edges := ((binsR.getD i []).getD j []) with hedges
  set t := ((yTd.getD i []).getD j 0) with ht
  -- the offending edge vector is strictly increasing, as the call succeeded
  have hchain : List.Chain' (· < ·) edges := by
    by_contra hch
    exact hns ⟨binsR.getD i [], getD_mem _ _ _ hib,
      edges, getD_mem _ _ _ hjb, hch⟩
  -- the located class is the sentinel -1
  have hcls : ((classesMatrix binsR yTd).getD i []).getD j 0 = -1 := by
    rw [classesMatrix,
      getD_zipWith _ binsR yTd i [] [] [] hib hit,
      getD_zipWith _ _ _ j [] 0 0 hjb hjt]
    exact findBin_out_of_range hchain hrange
  -- bounds for the classes matrix
  have hicls : i < (classesMatrix binsR yTd).length := by
    rw [classesMatrix, List.length_zipWith]; omega
  have hjcls : j < ((classesMatrix binsR yTd).getD i []).length := by
    rw [classesMatrix,
      getD_zipWith _ binsR yTd i [] [] [] hib hit, List.length_zipWith]
    omega
  -- the selected probability is 0 and the selected width is -1
  have hpreds : ((predsMatrix probN (classesMatrix binsR yTd)).getD i []).getD j 0 = 0 := by
    rw [predsMatrix,
      getD_zipWith _ probN _ i [] [] [] hip hicls,
      getD_zipWith _ _ _ j [] 0 0 hjp hjcls, hcls]
    simp
  have hsel : ((selBinsMatrix binsR (classesMatrix binsR yTd)).getD i []).getD j 0 = -1 := by
    rw [selBinsMatrix,
      getD_zipWith _ binsR _ i [] [] [] hib hicls,
      getD_zipWith _ _ _ j [] 0 0 hjb hjcls, hcls]
    simp
  -- bounds for preds/sel matrices
  have hipreds : i < (predsMatrix probN (classesMatrix binsR yTd)).length := by
    rw [predsMatrix, List.length_zipWith]; omega
  have hjpreds : j < ((predsMatrix probN (classesMatrix binsR yTd)).getD i []).length := by
    rw [predsMatrix, getD_zipWith _ probN _ i [] [] [] hip hicls, List.length_zipWith]
    omega
  have hisel : i < (selBinsMatrix binsR (classesMatrix binsR yTd)).length := by
    rw [selBinsMatrix, List.length_zipWith]; omega
  have hjsel : j < ((selBinsMatrix binsR (classesMatrix binsR yTd)).getD i []).length := by
    rw [selBinsMatrix, getD_zipWith _ binsR _ i [] [] [] hib hicls, List.length_zipWith]
    omega
  have hdens : ((densityMatrix binsR probN yTd).getD i []).getD j 0 = 0 := by
    rw [densityMatrix,
      getD_zipWith _ _ _ i [] [] [] hipreds hisel,
      getD_zipWith _ _ _ j 0 0 0 hjpreds hjsel, hpreds, hsel]
    exact zero_div _
  have hidens : i < (densityMatrix binsR probN yTd).length := by
    rw [densityMatrix, List.length_zipWith]; omega
  have hjdens : j < ((densityMatrix binsR probN yTd).getD i []).length := by
    rw [densityMatrix, getD_zipWith _ _ _ i [] [] [] hipreds hisel, List.length_zipWith]
    omega
  have hlk : ((lkMatrix binsR probN yTd).getD i []).getD j 0 = -50 := by
    rw [lkMatrix,
      getD_map _ _ i [] [] hidens,
      getD_map _ _ j 0 0 hjdens, hdens, logClip, if_pos rfl, WORST_LK]
  exact ⟨hcls, hdens, hlk, by rw [hlk]; norm_num, hr⟩

theorem binned_out_of_range_floor_witness :
    nllRegCall 1 [[5]] predBinsOut = .ok 50 ∧
    (((lkMatrix (unwrap3 (binsOf 1 predBinsOut))
        (probNorm (unwrap3 (probOf 1 predBinsOut)))
        ([[5]] : List (List ℝ)).transpose).getD 0 []).getD 0 0 = -50) ∧
    (-(((lkMatrix (unwrap3 (binsOf 1 predBinsOut))
        (probNorm (unwrap3 (probOf 1 predBinsOut)))
        ([[5]] : List (List ℝ)).transpose).getD 0 []).getD 0 0) = 50) := by
  have happrob : probNorm (unwrap3 (probOf 1 predBinsOut)) = [[[(1:ℝ)]]] := by
    have h1 : unwrap3 (probOf 1 predBinsOut) = [[[(1:ℝ)]]] := rfl
    rw [h1, probNorm, if_pos]
    intro d hd row hrow
    simp only [List.mem_singleton] at hd
    subst hd
    simp only [List.mem_singleton] at hrow
    subst hrow
    norm_num
  have hbinsR : unwrap3 (binsOf 1 predBinsOut) = [[[(0:ℝ), 1]]] := rfl
  have hyTd : ([[(5:ℝ)]] : List (List ℝ)).transpose = [[5]] := rfl
  have hns : ¬ someUnsorted (unwrap3 (binsOf 1 predBinsOut)) := by
    rw [hbinsR]
    rintro ⟨d, hd, row, hrow, hch⟩
    simp only [List.mem_singleton] at hd
    subst hd
    simp only [List.mem_singleton] at hrow
    subst hrow
    exact hch (by simp only [List.chain'_cons, List.chain'_singleton, and_true]; norm_num)
  have hfb : findBin (5:ℝ) [0, 1] = -1 := by
    rw [findBin, if_neg (by norm_num), findBinAux, if_neg (by norm_num)]
    rfl
  have hok : nllRegCall 1 [[5]] predBinsOut = .ok 50 := by
    rw [nllRegCall, nllRegCore_ok
      (show (hasNaN3 (binsOf 1 predBinsOut) || hasNaN3 (probOf 1 predBinsOut)) = false from rfl)
      hns]
    congr 1
    rw [scoreOf, lkMatrix, densityMatrix, predsMatrix, selBinsMatrix, classesMatrix,
      happrob, hbinsR, hyTd]
    simp only [List.zipWith, List.map, List.flatten]
    rw [hfb]
    simp only [if_pos rfl]
    rw [logClip]
    norm_num [WORST_LK]
  have h := binned_out_of_range_floor 1 [[5]] predBinsOut 50 0 0 hok
    (by rw [hbinsR]; norm_num) (by rw [hyTd]; norm_num) (by rw [happrob]; norm_num)
    (by rw [hbinsR]; norm_num) (by rw [hyTd]; norm_num) (by rw [happrob]; norm_num)
    (Or.inr ⟨1, by rw [hbinsR]; rfl, by rw [hyTd]; norm_num⟩)
  exact ⟨hok, h.2.2.1, h.2.2.2.1⟩

/-! ## C2 -/

/-- C2: if the wrapped scorer's average negative log-likelihood equals the
negated mean of the baseline log-likelihoods (the candidate matches the
fitted per-dimension baseline Gaussian exactly), the baseline ratio scorer
returns exactly 1. -/
theorem ratio_one_on_baseline (n : ℕ) (yT : List (List ℝ)) (yP : List (List (List F)))
    (r : ℝ) (h1 : nllRegCall n yT yP = .ok r) (h2 : r = -baselineMeanLL yT) :
    likelihoodRatio_call n yT yP = .ok 1 := by
  rw [likelihoodRatio_call, h1, h2]
  show Except.ok (Real.exp (-(-baselineMeanLL yT) - baselineMeanLL yT)) = Except.ok 1
  rw [show -(-baselineMeanLL yT) - baselineMeanLL yT = 0 by ring, Real.exp_zero]

theorem sqrt_2pie_gt3 : (3 : ℝ) < Real.sqrt (2 * π * Real.exp 1) := by
  have h9 : (9 : ℝ) < 2 * π * Real.exp 1 := by
    have hpi := Real.pi_gt_d6
    have he := Real.exp_one_gt_d9
    norm_num at hpi he ⊢
    nlinarith [Real.pi_pos, Real.exp_pos 1]
  calc (3 : ℝ) = Real.sqrt 9 := by
        rw [show (9 : ℝ) = 3 ^ 2 by norm_num, Real.sqrt_sq (by norm_num)]
    _ < Real.sqrt (2 * π * Real.exp 1) := Real.sqrt_lt_sqrt (by norm_num) h9

theorem ratio_one_on_baseline_witness :
    nllRegCall 1 [[0], [2]] predBinsCal = .ok ((Real.log (2 * π) + 1) / 2) ∧
    (Real.log (2 * π) + 1) / 2 = -baselineMeanLL [[0], [2]] ∧
    likelihoodRatio_call 1 [[0], [2]] predBinsCal = .ok 1 := by
  have hpos : (0 : ℝ) < 2 * π * Real.exp 1 := by positivity
  have hs3 := sqrt_2pie_gt3
  have hcE : (2 : ℝ) < calEdge := by rw [calEdge]; linarith
  have hbinsR : unwrap3 (binsOf 1 predBinsCal) = [[[-1, calEdge], [-1, calEdge]]] := rfl
  have hprobU : unwrap3 (probOf 1 predBinsCal) = [[[(1:ℝ)], [1]]] := rfl
  have hprobN : probNorm (unwrap3 (probOf 1 predBinsCal)) = [[[(1:ℝ)], [1]]] := by
    rw [hprobU, probNorm, if_pos]
    intro d hd row hrow
    simp only [List.mem_singleton] at hd
    subst hd
    simp only [List.mem_cons, List.mem_singleton, List.not_mem_nil, or_false] at hrow
    rcases hrow with h | h <;> subst h <;> norm_num
  have hyTd : ([[(0:ℝ)], [2]]).transpose = [[0, 2]] := rfl
  have hns : ¬ someUnsorted (unwrap3 (binsOf 1 predBinsCal)) := by
    rw [hbinsR]
    rintro ⟨d, hd, row, hrow, hch⟩
    simp only [List.mem_singleton] at hd
    subst hd
    simp only [List.mem_cons, List.mem_singleton, List.not_mem_nil, or_false] at hrow
    rcases hrow with h | h <;> subst h <;>
      exact hch (by simp only [List.chain'_cons, List.chain'_singleton, and_true]; linarith)
  have hfb0 : findBin (0:ℝ) [-1, calEdge] = 0 := by
    rw [findBin, if_neg (by norm_num), findBinAux, if_pos (by linarith : calEdge > 0)]
    norm_num
  have hfb2 : findBin (2:ℝ) [-1, calEdge] = 0 := by
    rw [findBin, if_neg (by norm_num), findBinAux, if_pos (by linarith : calEdge > 2)]
    norm_num
  have hce : calEdge - -1 = Real.sqrt (2 * π * Real.exp 1) := by rw [calEdge]; ring
  have hlogd : logClip (1 / (calEdge - -1)) = -((Real.log (2 * π) + 1) / 2) := by
    rw [hce, logClip, if_neg (by positivity)]
    have hlog : Real.log (1 / Real.sqrt (2 * π * Real.exp 1)) =
        -((Real.log (2 * π) + 1) / 2) := by
      rw [one_div, Real.log_inv, Real.log_sqrt hpos.le,
        Real.log_mul (by positivity) (Real.exp_ne_zero 1), Real.log_exp]
    rw [hlog, max_eq_left]
    rw [WORST_LK]
    have hlt : Real.log (2 * π) ≤ 99 := by
      rw [Real.log_le_iff_le_exp (by positivity)]
      have h99 : (100 : ℝ) ≤ Real.exp 99 := by
        have := Real.add_one_le_exp (99 : ℝ)
        linarith
      have hpi := Real.pi_lt_d6
      norm_num at hpi
      linarith
    linarith
  have hdensM : densityMatrix (unwrap3 (binsOf 1 predBinsCal))
      (probNorm (unwrap3 (probOf 1 predBinsCal))) ([[(0:ℝ)], [2]]).transpose =
      [[1 / (calEdge - -1), 1 / (calEdge - -1)]] := by
    rw [densityMatrix, predsMatrix, selBinsMatrix, classesMatrix, hprobN, hbinsR, hyTd]
    simp only [List.zipWith]
    rw [hfb0, hfb2]
    norm_num [binWidths, List.tail_cons, List.zipWith, List.getD_cons_zero]
  have hlkM : lkMatrix (unwrap3 (binsOf 1 predBinsCal))
      (probNorm (unwrap3 (probOf 1 predBinsCal))) ([[(0:ℝ)], [2]]).transpose =
      [[-((Real.log (2 * π) + 1) / 2), -((Real.log (2 * π) + 1) / 2)]] := by
    rw [lkMatrix, hdensM]
    simp only [List.map]
    rw [hlogd]
  have hok : nllRegCall 1 [[0], [2]] predBinsCal = .ok ((Real.log (2 * π) + 1) / 2) := by
    rw [nllRegCall, nllRegCore_ok
      (show (hasNaN3 (binsOf 1 predBinsCal) || hasNaN3 (probOf 1 predBinsCal)) = false from rfl)
      hns]
    congr 1
    rw [scoreOf, hlkM]
    simp only [List.flatten, List.map, List.append_nil, List.sum_cons, List.sum_nil,
      List.length_cons, List.length_nil]
    norm_num
  have h2 : (Real.log (2 * π) + 1) / 2 = -baselineMeanLL [[0], [2]] := by
    rw [baselineMeanLL_02]
    ring
  exact ⟨hok, h2, ratio_one_on_baseline 1 [[0], [2]] predBinsCal _ hok h2⟩

/-! ## C7 -/

theorem sum_map_zero (l : List ℝ) : (l.map (fun _ => (0:ℝ))).sum = 0 := by
  induction l <;> simp_all

theorem sum_map_div (l : List ℝ) (s : ℝ) : (l.map (fun x => x / s)).sum = l.sum / s := by
  induction l with
  | nil => simp
  | cons a t ih => simp [ih, add_div]

theorem sum_map_mulc (c : ℝ) (l : List ℝ) : (l.map (fun x => c * x)).sum = c * l.sum := by
  induction l with
  | nil => simp
  | cons a t ih => simp [ih, mul_add]

/-- Renormalizing a positively rescaled row gives the same result as
renormalizing the original row. -/
theorem normRow_scale (c : ℝ) (hc : c ≠ 0) (row : List ℝ) :
    normRow (row.map (fun x => c * x)) = normRow row := by
  rw [normRow, normRow, sum_map_mulc, List.map_map]
  refine List.map_congr_left (fun x _ => ?_)
  simp only [Function.comp_apply]
  exact mul_div_mul_left x row.sum hc

/-- Renormalization is idempotent (a renormalized row either sums to 1 or,
when the original sum was 0, is the all-zero row, which renormalizes to
itself). -/
theorem normRow_idem (row : List ℝ) : normRow (normRow row) = normRow row := by
  by_cases hs : row.sum = 0
  · have h0 : normRow row = row.map (fun _ => (0:ℝ)) := by
      rw [normRow, hs]
      simp [div_zero]
    have hsum0 : (normRow row).sum = 0 := by
      rw [h0, sum_map_zero]
    rw [normRow, hsum0, h0, List.map_map]
    exact List.map_congr_left (fun x _ => by simp [div_zero])
  · have hsum1 : (normRow row).sum = 1 := by
      rw [normRow, sum_map_div, div_self hs]
    rw [normRow, hsum1]
    refine List.map_congr_left (fun x _ => ?_) |>.trans (List.map_id _)
    exact div_one x

/-- `probNorm` always equals row-wise renormalization: when every row
already sums to 1, dividing by those unit sums changes nothing. -/
theorem probNorm_eq_mapNorm (p : List (List (List ℝ))) :
    probNorm p = p.map (fun d => d.map normRow) := by
  rw [probNorm]
  by_cases h : allOne p
  · rw [if_pos h]
    symm
    refine (List.map_congr_left (fun dd hd => ?_)).trans (List.map_id _)
    refine (List.map_congr_left (fun row hr => ?_)).trans (List.map_id _)
    have h1 := h dd hd row hr
    rw [normRow, h1]
    refine (List.map_congr_left (fun x _ => div_one x)).trans (List.map_id _)
  · rw [if_neg h]

theorem map_mapAt_cancel {α β : Type} (g : α → β) (f : α → α)
    (hgf : ∀ x, g (f x) = g x) : ∀ (i : ℕ) (l : List α), (mapAt f i l).map g = l.map g := by
  intro i l
  induction l generalizing i with
  | nil => cases i <;> rfl
  | cons a t ih =>
    cases i with
    | zero => simp [mapAt, hgf]
    | succ k => simp [mapAt, ih]

theorem map_mapAt_comm {α β : Type} (g : α → β) (f : α → α) (f' : β → β)
    (hgf : ∀ x, g (f x) = f' (g x)) :
    ∀ (i : ℕ) (l : List α), (mapAt f i l).map g = mapAt f' i (l.map g) := by
  intro i l
  induction l generalizing i with
  | nil => cases i <;> rfl
  | cons a t ih =>
    cases i with
    | zero => simp [mapAt, hgf]
    | succ k => simp [mapAt, ih]

theorem any_mapAt {α : Type} (p : α → Bool) (f : α → α)
    (hpf : ∀ x, p (f x) = p x) : ∀ (i : ℕ) (l : List α), (mapAt f i l).any p = l.any p := by
  intro i l
  induction l generalizing i with
  | nil => cases i <;> rfl
  | cons a t ih =>
    cases i with
    | zero => simp [mapAt, hpf]
    | succ k => simp [mapAt, ih]

/-- Scaling a probability row does not create or destroy NaNs. -/
theorem hasNaN3_scale (c : ℝ) (d s : ℕ) (prob : List (List (List F))) :
    hasNaN3 (mapAt (mapAt (List.map (Option.map (fun x => c * x))) s) d prob) =
      hasNaN3 prob := by
  rw [hasNaN3, hasNaN3]
  refine any_mapAt _ _ (fun dd => ?_) d prob
  refine any_mapAt _ _ (fun r => ?_) s dd
  induction r with
  | nil => rfl
  | cons x t ih => cases x <;> simp [ih]

/-- Reading values commutes with the scaling transform (`NaN` reads as 0
and `c * 0 = 0`). -/
theorem unwrap3_scale (c : ℝ) (d s : ℕ) (prob : List (List (List F))) :
    unwrap3 (mapAt (mapAt (List.map (Option.map (fun x => c * x))) s) d prob) =
      mapAt (mapAt (List.map (fun x => c * x)) s) d (unwrap3 prob) := by
  rw [unwrap3, unwrap3]
  refine map_mapAt_comm _ _ _ (fun dd => ?_) d prob
  refine map_mapAt_comm _ _ _ (fun r => ?_) s dd
  rw [List.map_map, List.map_map]
  refine List.map_congr_left (fun x _ => ?_)
  cases x with
  | none => simp [Function.comp_apply, mul_zero]
  | some a => rfl

/-- Renormalization absorbs a rescaling of any single row. -/
theorem probNorm_scale (c : ℝ) (hc : c ≠ 0) (d s : ℕ) (q : List (List (List ℝ))) :
    probNorm (mapAt (mapAt (List.map (fun x => c * x)) s) d q) = probNorm q := by
  rw [probNorm_eq_mapNorm, probNorm_eq_mapNorm]
  refine map_mapAt_cancel _ _ (fun dd => ?_) d q
  refine map_mapAt_cancel _ _ (fun row => ?_) s dd
  exact normRow_scale c hc row

/-- C7: multiplying all bin probabilities of one decoded
(dimension, sample) row by a positive constant `c` before scoring yields
the identical score — the per-row division by the probability sum makes
the binned scorer invariant to positive rescaling — and the
renormalization step is idempotent. -/
theorem binned_scale_invariance (bins prob : List (List (List F)))
    (yTd : List (List ℝ)) (d s : ℕ) (c : ℝ) (hc : 0 < c) :
    nllRegCore bins (mapAt (mapAt (List.map (Option.map (fun x => c * x))) s) d prob) yTd =
      nllRegCore bins prob yTd ∧
    ∀ q : List (List (List ℝ)), probNorm (probNorm q) = probNorm q := by
  constructor
  · rw [nllRegCore, nllRegCore, hasNaN3_scale, unwrap3_scale,
      probNorm_scale c (ne_of_gt hc)]
  · intro q
    rw [probNorm_eq_mapNorm (probNorm q), probNorm_eq_mapNorm q, List.map_map]
    refine List.map_congr_left (fun dd _ => ?_)
    simp only [Function.comp_apply, List.map_map]
    exact List.map_congr_left (fun row _ => normRow_idem row)

theorem binned_scale_invariance_witness :
    (0:ℝ) < 3 ∧
    nllRegCore [[[some 0, some 1]]]
      (mapAt (mapAt (List.map (Option.map (fun x => (3:ℝ) * x))) 0) 0 [[[some 2]]])
      [[(1:ℝ)/2]] =
      nllRegCore [[[some 0, some 1]]] [[[some 2]]] [[(1:ℝ)/2]] :=
  ⟨by norm_num,
    (binned_scale_invariance [[[some 0, some 1]]] [[[some 2]]] [[(1:ℝ)/2]] 0 0 3
      (by norm_num)).1⟩

/-! ## C8 and C9: rank lemmas -/

theorem one_le_card_eq {n : ℕ} (x : Fin n → ℚ) (i : Fin n) :
    1 ≤ (Finset.univ.filter (fun j => x j = x i)).card :=
  Finset.card_pos.mpr ⟨i, by simp⟩

theorem card_le_add_of_lt {n : ℕ} (x : Fin n → ℚ) {i j : Fin n} (h : x i < x j) :
    (Finset.univ.filter (fun k => x k < x i)).card +
      (Finset.univ.filter (fun k => x k = x i)).card ≤
    (Finset.univ.filter (fun k => x k < x j)).card := by
  have hdisj : Disjoint (Finset.univ.filter (fun k => x k < x i))
      (Finset.univ.filter (fun k => x k = x i)) := by
    rw [Finset.disjoint_left]
    intro k hk1 hk2
    simp only [Finset.mem_filter, Finset.mem_univ, true_and] at hk1 hk2
    exact absurd hk2 (ne_of_lt hk1)
  have hunion : (Finset.univ.filter (fun k => x k < x i)) ∪
      (Finset.univ.filter (fun k => x k = x i)) ⊆
      Finset.univ.filter (fun k => x k < x j) := by
    intro k hk
    simp only [Finset.mem_union, Finset.mem_filter, Finset.mem_univ, true_and] at hk ⊢
    rcases hk with hlt | heq
    · exact lt_trans hlt h
    · rw [heq]; exact h
  calc (Finset.univ.filter (fun k => x k < x i)).card +
        (Finset.univ.filter (fun k => x k = x i)).card
      = ((Finset.univ.filter (fun k => x k < x i)) ∪
        (Finset.univ.filter (fun k => x k = x i))).card :=
        (Finset.card_union_of_disjoint hdisj).symm
    _ ≤ _ := Finset.card_le_card hunion

theorem rankAvg_lt_of_lt {n : ℕ} (x : Fin n → ℚ) {i j : Fin n} (h : x i < x j) :
    rankAvg x i < rankAvg x j := by
  rw [rankAvg, rankAvg]
  have hsub := card_le_add_of_lt x h
  have hE1 := one_le_card_eq x i
  have hE2 := one_le_card_eq x j
  have hsub' : ((Finset.univ.filter (fun k => x k < x i)).card : ℚ) +
      ((Finset.univ.filter (fun k => x k = x i)).card : ℚ) ≤
      ((Finset.univ.filter (fun k => x k < x j)).card : ℚ) := by
    exact_mod_cast hsub
  have hE1' : (1:ℚ) ≤ ((Finset.univ.filter (fun k => x k = x i)).card : ℚ) := by
    exact_mod_cast hE1
  have hE2' : (1:ℚ) ≤ ((Finset.univ.filter (fun k => x k = x j)).card : ℚ) := by
    exact_mod_cast hE2
  linarith

theorem rankAvg_eq_of_eq {n : ℕ} (x : Fin n → ℚ) {i j : Fin n} (h : x i = x j) :
    rankAvg x i = rankAvg x j := by
  rw [rankAvg, rankAvg]
  simp only [h]

theorem rankAvg_lt_iff {n : ℕ} (x : Fin n → ℚ) (i j : Fin n) :
    rankAvg x i < rankAvg x j ↔ x i < x j := by
  constructor
  · intro h
    rcases lt_trichotomy (x i) (x j) with hl | he | hg
    · exact hl
    · exact absurd (rankAvg_eq_of_eq x he) (ne_of_lt h)
    · exact absurd (rankAvg_lt_of_lt x hg) (lt_asymm h)
  · exact rankAvg_lt_of_lt x

theorem rankAvg_eq_iff {n : ℕ} (x : Fin n → ℚ) (i j : Fin n) :
    rankAvg x i = rankAvg x j ↔ x i = x j := by
  constructor
  · intro h
    rcases lt_trichotomy (x i) (x j) with hl | he | hg
    · exact absurd (rankAvg_lt_of_lt x hl) (by rw [h]; exact lt_irrefl _)
    · exact he
    · exact absurd (rankAvg_lt_of_lt x hg) (by rw [h]; exact lt_irrefl _)
  · exact rankAvg_eq_of_eq x

/-- `rankdata` depends only on the order structure of its input, so it is
idempotent: ranking a rank vector returns it unchanged. -/
theorem rankAvg_idem {n : ℕ} (x : Fin n → ℚ) (i : Fin n) :
    rankAvg (fun j => rankAvg x j) i = rankAvg x i := by
  rw [rankAvg]
  have h1 : (Finset.univ.filter (fun k => rankAvg x k < rankAvg x i)) =
      Finset.univ.filter (fun k => x k < x i) :=
    Finset.filter_congr (fun k _ => by rw [rankAvg_lt_iff])
  have h2 : (Finset.univ.filter (fun k => rankAvg x k = rankAvg x i)) =
      Finset.univ.filter (fun k => x k = x i) :=
    Finset.filter_congr (fun k _ => by rw [rankAvg_eq_iff])
  rw [h1, h2, rankAvg]

theorem filter_le_card {n : ℕ} (x : Fin n → ℚ) (i : Fin n) :
    (Finset.univ.filter (fun k => x k < x i)).card +
      (Finset.univ.filter (fun k => x k = x i)).card +
      (Finset.univ.filter (fun k => x i < x k)).card = n := by
  have hdisj : Disjoint (Finset.univ.filter (fun k => x k < x i))
      (Finset.univ.filter (fun k => x k = x i)) := by
    rw [Finset.disjoint_left]
    intro k hk1 hk2
    simp only [Finset.mem_filter, Finset.mem_univ, true_and] at hk1 hk2
    exact absurd hk2 (ne_of_lt hk1)
  have hle : (Finset.univ.filter (fun k => x k ≤ x i)) =
      (Finset.univ.filter (fun k => x k < x i)) ∪
        (Finset.univ.filter (fun k => x k = x i)) := by
    rw [← Finset.filter_or]
    exact Finset.filter_congr (fun k _ => by rw [le_iff_lt_or_eq])
  have hsplit := Finset.filter_card_add_filter_neg_card_eq_card
    (s := (Finset.univ : Finset (Fin n))) (p := fun k => x k ≤ x i)
  have hgt : (Finset.univ.filter (fun k => ¬ (x k ≤ x i))) =
      Finset.univ.filter (fun k => x i < x k) :=
    Finset.filter_congr (fun k _ => by rw [not_le])
  rw [hgt, hle, Finset.card_union_of_disjoint hdisj] at hsplit
  simpa using hsplit

/-- Ranking a reversed criterion reverses the ranks:
`rankdata(c - x) = n + 1 - rankdata(x)` (the 'average' method keeps this
exact even with ties). -/
theorem rankAvg_reverse {n : ℕ} (x : Fin n → ℚ) (c : ℚ) (i : Fin n) :
    rankAvg (fun j => c - x j) i = (n + 1 : ℚ) - rankAvg x i := by
  rw [rankAvg, rankAvg]
  have h1 : (Finset.univ.filter (fun k => c - x k < c - x i)) =
      Finset.univ.filter (fun k => x i < x k) :=
    Finset.filter_congr (fun k _ => by rw [sub_lt_sub_iff_left])
  have h2 : (Finset.univ.filter (fun k => c - x k = c - x i)) =
      Finset.univ.filter (fun k => x k = x i) :=
    Finset.filter_congr (fun k _ => by rw [sub_right_inj])
  rw [h1, h2]
  have hpart := filter_le_card x i
  have hpart' : ((Finset.univ.filter (fun k => x k < x i)).card : ℚ) +
      ((Finset.univ.filter (fun k => x k = x i)).card : ℚ) +
      ((Finset.univ.filter (fun k => x i < x k)).card : ℚ) = n := by
    exact_mod_cast hpart
  linarith

/-- Combining a singleton list divides the single rank transform by 1. -/
theorem rankCombine_singleton {n : ℕ} (p : RankPred n) :
    rankCombine [p] = rankTransform p := by
  rw [rankCombine, rankTransform]
  refine Prod.ext ?_ ?_ <;> funext i <;>
    simp [List.map_cons, List.map_nil, List.sum_cons, List.sum_nil]

/-- C8: combining a single-element prediction list returns exactly that
prediction's rank transform (column 0 becomes `rankdata(col0)`, column 1
becomes `n - rankdata(col1)` with `n` the number of samples), and the
combined result is invariant under permuting the input list. -/
theorem rank_combine_identity_perm {n : ℕ} (p : RankPred n)
    (l l' : List (RankPred n)) (h : l.Perm l') :
    rankCombine [p] = rankTransform p ∧ rankCombine l = rankCombine l' := by
  refine ⟨rankCombine_singleton p, ?_⟩
  rw [rankCombine, rankCombine, h.length_eq]
  refine congrArg₂ Prod.mk ?_ ?_ <;> funext i
  · rw [(h.map (fun p => rankAvg p.1 i)).sum_eq]
  · rw [(h.map (fun p => (n : ℚ) - rankAvg p.2 i)).sum_eq]

theorem rank_combine_identity_perm_witness :
    (([((fun _ => (0:ℚ)), (fun _ => (0:ℚ))), ((fun _ => (1:ℚ)), (fun _ => (1:ℚ)))] :
        List (RankPred 1)).Perm
      ([((fun _ => (1:ℚ)), (fun _ => (1:ℚ))), ((fun _ => (0:ℚ)), (fun _ => (0:ℚ)))] :
        List (RankPred 1))) ∧
    (rankCombine [(((fun _ => (0:ℚ)), (fun _ => (0:ℚ))) : RankPred 1)] =
        rankTransform (((fun _ => (0:ℚ)), (fun _ => (0:ℚ))) : RankPred 1) ∧
      rankCombine ([((fun _ => (0:ℚ)), (fun _ => (0:ℚ))), ((fun _ => (1:ℚ)), (fun _ => (1:ℚ)))] :
          List (RankPred 1)) =
        rankCombine ([((fun _ => (1:ℚ)), (fun _ => (1:ℚ))), ((fun _ => (0:ℚ)), (fun _ => (0:ℚ)))] :
          List (RankPred 1))) :=
  ⟨List.Perm.swap _ _ _,
    rank_combine_identity_perm (((fun _ => (0:ℚ)), (fun _ => (0:ℚ))) : RankPred 1)
      ([((fun _ => (0:ℚ)), (fun _ => (0:ℚ))), ((fun _ => (1:ℚ)), (fun _ => (1:ℚ)))] :
        List (RankPred 1))
      ([((fun _ => (1:ℚ)), (fun _ => (1:ℚ))), ((fun _ => (0:ℚ)), (fun _ => (0:ℚ)))] :
        List (RankPred 1))
      (List.Perm.swap _ _ _)⟩

/-! ## C9 -/

theorem rankAvg_ten_twenty : rankAvg (![10, 20] : Fin 2 → ℚ) 0 = 1 := by
  rw [rankAvg]
  have h1 : (Finset.univ.filter
      (fun j => (![10, 20] : Fin 2 → ℚ) j < (![10, 20] : Fin 2 → ℚ) 0)) =
      (∅ : Finset (Fin 2)) := by
    ext j
    fin_cases j <;>
      simp [Matrix.cons_val_zero, Matrix.cons_val_one, Matrix.head_cons]
    norm_num
  have h2 : (Finset.univ.filter
      (fun j => (![10, 20] : Fin 2 → ℚ) j = (![10, 20] : Fin 2 → ℚ) 0)) =
      ({0} : Finset (Fin 2)) := by
    ext j
    fin_cases j <;>
      simp [Matrix.cons_val_zero, Matrix.cons_val_one, Matrix.head_cons]
  rw [h1, h2]
  norm_num

/-- C9 counterexample: re-combining an already-combined ranking prediction
is not the identity.  For `p` with `y_pred` columns `[10, 20]`,
`combine([p])` has second column `[1, 0]` (`n - rank`), but
`combine([combine([p])])` has second column `[0, 1]`. -/
theorem rank_recombine_changes :
    rankCombine [rankCombine [((![10, 20], ![10, 20]) : RankPred 2)]] ≠
      rankCombine [((![10, 20], ![10, 20]) : RankPred 2)] := by
  rw [rankCombine_singleton, rankCombine_singleton]
  intro h
  have h2 := congrArg (fun q : RankPred 2 => q.2 0) h
  have hL : (rankTransform (rankTransform ((![10, 20], ![10, 20]) : RankPred 2))).2 0 =
      rankAvg (![10, 20] : Fin 2 → ℚ) 0 - 1 := by
    show (2:ℚ) - rankAvg (fun j => (2:ℚ) - rankAvg (![10, 20] : Fin 2 → ℚ) j) 0 = _
    rw [rankAvg_reverse (fun j => rankAvg (![10, 20] : Fin 2 → ℚ) j) 2 0,
      rankAvg_idem (![10, 20] : Fin 2 → ℚ) 0]
    push_cast
    ring
  have hR : (rankTransform ((![10, 20], ![10, 20]) : RankPred 2)).2 0 =
      2 - rankAvg (![10, 20] : Fin 2 → ℚ) 0 := rfl
  simp only at h2
  rw [hL, hR, rankAvg_ten_twenty] at h2
  norm_num at h2

/-- C9 amended: `combine([combine([p])])` preserves column 0 (ranking is
idempotent on an already-ranked column) but sends column 1 to
`rankdata(col1) - 1` — the reversal `n - rankdata(·)` applied twice shifts
the column by `n + 1 - 2·rank`, so re-combining is *not* the identity in
general (the counterexample column `[1, 0]` becomes `[0, 1]`). -/
theorem rank_recombine_characterization {n : ℕ} (p : RankPred n) :
    (rankCombine [rankCombine [p]]).1 = (rankCombine [p]).1 ∧
    (rankCombine [rankCombine [p]]).2 = fun i => rankAvg p.2 i - 1 := by
  rw [rankCombine_singleton, rankCombine_singleton]
  constructor
  · funext i
    show rankAvg (fun j => rankAvg p.1 j) i = rankAvg p.1 i
    exact rankAvg_idem p.1 i
  · funext i
    show (n : ℚ) - rankAvg (fun j => (n : ℚ) - rankAvg p.2 j) i = rankAvg p.2 i - 1
    rw [rankAvg_reverse (fun j => rankAvg p.2 j) (n : ℚ) i, rankAvg_idem p.2 i]
    ring
